import Mathlib

/-!
Verification of the firegen metrics generator (cmd/firegen/main.go).

The definitions below are a shallow embedding of the Go source:
`attributeConfig`, `iterateAttributes`, the per-tick outcome
classification in `generate`, the per-service stagger offset
(float32 arithmetic modelled exactly over the rationals), the export
timeout constants, and the clamped configuration / "Total series"
computation from `main`.
-/

namespace Firegen

/-- Go struct `attributeConfig {Name string; Cardinality int}`. -/
structure attributeConfig where
  Name : String
  Cardinality : ℤ
deriving DecidableEq, Repr

/-- OTel `attribute.KeyValue` as produced by `attribute.String(key, value)`. -/
structure KeyValue where
  key : String
  value : String
deriving DecidableEq, Repr

/-- One decimal digit as a character, for rendering `fmt.Sprintf` verbs. -/
def digitChar (d : ℕ) : Char :=
  match d with
  | 0 => '0' | 1 => '1' | 2 => '2' | 3 => '3' | 4 => '4'
  | 5 => '5' | 6 => '6' | 7 => '7' | 8 => '8' | _ => '9'

/-- Fuel-driven decimal rendering (most significant digit first),
accumulating onto `acc`; mirrors the digit loop of Go's integer
formatting. The fuel is an upper bound on the number of digits. -/
def toDecimalAux : ℕ → ℕ → List Char → List Char
  | 0, _, acc => acc
  | fuel + 1, n, acc =>
      let d := digitChar (n % 10)
      if n < 10 then d :: acc else toDecimalAux fuel (n / 10) (d :: acc)

/-- Decimal digits of `n`, most significant first (`"%d"`). -/
def decimalDigits (n : ℕ) : List Char := toDecimalAux (n + 1) n []

/-- Go `fmt.Sprintf("%09d", i)` for a non-negative integer: the decimal
rendering left-padded with zeros to a minimum width of 9. -/
def sprintf09d (n : ℕ) : String :=
  let s := decimalDigits n
  String.mk (List.replicate (9 - s.length) '0' ++ s)

/-- `for i := range n { ... }` accumulating the blocks produced by each
iteration, in ascending order of `i`. -/
def concatMapRange (f : ℕ → List α) : ℕ → List α
  | 0 => []
  | n + 1 => concatMapRange f n ++ f n

/-- The sequence of combinations yielded by Go's `iterateAttributes`
(the argument of every `yield` call, in call order).  The source
iterates `i` over `attrConfigs[0].Cardinality` (a Go `int`: zero
iterations when non-positive, hence `Int.toNat`), builds the
single-attribute list `attrs`, and either yields it directly (last
definition) or prepends it to every combination produced by the
recursive call on the remaining definitions. -/
def iterateAttributes : List attributeConfig → List (List KeyValue)
  | [] => []
  | c :: rest =>
      let inner := iterateAttributes rest
      concatMapRange
        (fun i =>
          let attrs := [KeyValue.mk c.Name (sprintf09d i)]
          if rest.isEmpty then [attrs]
          else inner.map fun recAttrs => attrs ++ recAttrs)
        c.Cardinality.toNat

/-- Product of the (clamped-to-`ℕ`) cardinalities. -/
def prodCardsNat (cfgs : List attributeConfig) : ℕ :=
  (cfgs.map fun a => a.Cardinality.toNat).prod

theorem concatMapRange_length (f : ℕ → List α) (L : ℕ)
    (hf : ∀ i, (f i).length = L) :
    ∀ n, (concatMapRange f n).length = n * L := by
  intro n
  induction n with
  | zero => simp [concatMapRange]
  | succ n ih =>
      simp [concatMapRange, List.length_append, ih, hf, Nat.succ_mul]

theorem iterateAttributes_length :
    ∀ cfgs : List attributeConfig, cfgs ≠ [] →
      (iterateAttributes cfgs).length = prodCardsNat cfgs := by
  intro cfgs
  induction cfgs with
  | nil => intro h; exact absurd rfl h
  | cons c rest ih =>
      intro _
      cases rest with
      | nil =>
          rw [iterateAttributes]
          rw [concatMapRange_length _ 1 (fun i => by simp [iterateAttributes])]
          simp [prodCardsNat]
      | cons r rs =>
          rw [iterateAttributes]
          rw [concatMapRange_length _ (prodCardsNat (r :: rs))
            (fun i => by
              simp only [List.isEmpty_cons, Bool.false_eq_true, if_false,
                List.length_map]
              exact ih (by simp))]
          simp [prodCardsNat, List.map_cons, List.prod_cons]

theorem concatMapRange_getElem (f : ℕ → List α) (L : ℕ)
    (hf : ∀ i, (f i).length = L) :
    ∀ (n j : ℕ) (h : j < (concatMapRange f n).length)
      (h2 : j % L < (f (j / L)).length),
      (concatMapRange f n)[j] = (f (j / L))[j % L] := by
  intro n
  induction n with
  | zero => intro j h h2; simp [concatMapRange] at h
  | succ n ih =>
      intro j h h2
      have hlen : (concatMapRange f n).length = n * L :=
        concatMapRange_length f L hf n
      have htot : j < n * L + L := by
        have h0 := h
        simp only [concatMapRange, List.length_append, hlen, hf] at h0
        exact h0
      have hL : 0 < L := by
        rcases Nat.eq_zero_or_pos L with h0 | h0
        · subst h0; simp at htot
        · exact h0
      simp only [concatMapRange]
      rcases Nat.lt_or_ge j (n * L) with hj | hj
      · have hj1 : j < (concatMapRange f n).length := by omega
        rw [List.getElem_append_left hj1]
        exact ih j hj1 h2
      · have hdiv : j / L = n :=
          Nat.div_eq_of_lt_le (by omega) (by rw [Nat.succ_mul]; omega)
        have hmod : j % L = j - n * L := by
          have h5 := Nat.div_add_mod j L
          rw [hdiv, Nat.mul_comm] at h5
          omega
        rw [List.getElem_append_right (by rw [hlen]; omega)]
        have hidx : j - (concatMapRange f n).length = j % L := by
          rw [hlen]; omega
        simp only [hidx, hdiv]

/-- Mixed-radix decoding of index `j` into an attribute combination,
following the spec's words: the first definition is the most significant
digit, the last cycles fastest, and each digit is rendered as a
zero-padded 9-digit decimal string.  This is the spec-side comparator
for the refinement claim C2. -/
def mixedRadixCombo : List attributeConfig → ℕ → List KeyValue
  | [], _ => []
  | c :: rest, j =>
      KeyValue.mk c.Name
          (sprintf09d ((j / prodCardsNat rest) % c.Cardinality.toNat)) ::
        mixedRadixCombo rest (j % prodCardsNat rest)

theorem iterateAttributes_get_eq_mixedRadix :
    ∀ (cfgs : List attributeConfig) (j : ℕ)
      (h : j < (iterateAttributes cfgs).length),
      (iterateAttributes cfgs)[j] = mixedRadixCombo cfgs j := by
  intro cfgs
  induction cfgs with
  | nil => intro j h; simp [iterateAttributes] at h
  | cons c rest ih =>
      intro j h
      cases rest with
      | nil =>
          have hiter : iterateAttributes [c] =
              concatMapRange (fun i => [[KeyValue.mk c.Name (sprintf09d i)]])
                c.Cardinality.toNat := rfl
          have hf : ∀ i : ℕ,
              ([[KeyValue.mk c.Name (sprintf09d i)]] : List (List KeyValue)).length
                = 1 := fun _ => rfl
          have hlen : j < c.Cardinality.toNat * 1 := by
            have h0 := h
            rw [hiter, concatMapRange_length _ 1 hf] at h0
            exact h0
          have h2 : j % 1 <
              ([[KeyValue.mk c.Name (sprintf09d (j / 1))]] : List (List KeyValue)).length := by
            simp [Nat.mod_one]
          simp only [hiter]
          rw [concatMapRange_getElem _ 1 hf _ j (hiter ▸ h) h2]
          simp only [Nat.div_one, Nat.mod_one, List.getElem_cons_zero]
          simp only [mixedRadixCombo, prodCardsNat, List.map_nil,
            List.prod_nil, Nat.div_one]
          have hj : j % c.Cardinality.toNat = j :=
            Nat.mod_eq_of_lt (by omega)
          simp [hj]
      | cons r rs =>
          have hiter : iterateAttributes (c :: r :: rs) =
              concatMapRange (fun i =>
                (iterateAttributes (r :: rs)).map
                  fun recAttrs => [KeyValue.mk c.Name (sprintf09d i)] ++ recAttrs)
                c.Cardinality.toNat := rfl
          have hinner : (iterateAttributes (r :: rs)).length = prodCardsNat (r :: rs) :=
            iterateAttributes_length (r :: rs) (by simp)
          have hf : ∀ i : ℕ,
              ((iterateAttributes (r :: rs)).map
                (fun recAttrs => [KeyValue.mk c.Name (sprintf09d i)] ++ recAttrs)).length
                = prodCardsNat (r :: rs) := fun i => by
            rw [List.length_map, hinner]
          have hlen : j < c.Cardinality.toNat * prodCardsNat (r :: rs) := by
            have h0 := h
            rw [hiter, concatMapRange_length _ _ hf] at h0
            exact h0
          have hL : 0 < prodCardsNat (r :: rs) := by
            rcases Nat.eq_zero_or_pos (prodCardsNat (r :: rs)) with h0 | h0
            · rw [h0] at hlen; omega
            · exact h0
          have h2 : j % prodCardsNat (r :: rs) <
              ((iterateAttributes (r :: rs)).map
                (fun recAttrs =>
                  [KeyValue.mk c.Name (sprintf09d (j / prodCardsNat (r :: rs)))] ++ recAttrs)).length := by
            rw [hf]
            exact Nat.mod_lt _ hL
          simp only [hiter]
          rw [concatMapRange_getElem _ _ hf _ j (hiter ▸ h) h2]
          have h3 : j % prodCardsNat (r :: rs) < (iterateAttributes (r :: rs)).length := by
            rw [hinner]; exact Nat.mod_lt _ hL
          rw [List.getElem_map]
          rw [ih (j % prodCardsNat (r :: rs)) h3]
          have hdivlt : j / prodCardsNat (r :: rs) < c.Cardinality.toNat := by
            rw [Nat.div_lt_iff_lt_mul hL]
            omega
          simp only [mixedRadixCombo]
          rw [Nat.mod_eq_of_lt hdivlt]
          rfl

theorem mixedRadixCombo_card_one :
    ∀ (cfgs : List attributeConfig) (k : ℕ) (hk : k < cfgs.length),
      (cfgs.get ⟨k, hk⟩).Cardinality = 1 →
      ∀ j : ℕ, (mixedRadixCombo cfgs j)[k]? =
        some (KeyValue.mk (cfgs.get ⟨k, hk⟩).Name "000000000") := by
  intro cfgs
  induction cfgs with
  | nil => intro k hk; simp at hk
  | cons c rest ih =>
      intro k hk hcard j
      cases k with
      | zero =>
          simp only [List.get] at hcard
          simp only [mixedRadixCombo, List.getElem?_cons_zero, hcard]
          have h1 : ((1 : ℤ).toNat) = 1 := rfl
          rw [h1, Nat.mod_one]
          simp only [List.get]
          rfl
      | succ k =>
          simp only [List.get] at hcard
          simp only [mixedRadixCombo, List.getElem?_cons_succ]
          exact ih k (by simpa using hk) hcard _

/-- Faithful model of running Go's `iterateAttributes` iterator against a
consumer `yield : []attribute.KeyValue → bool`: the returned list records,
in call order, each argument passed to `yield` together with the boolean
`yield` returned for it.  The source discards that boolean (the result of
`yield(...)` is never consulted), and the inner `for ... range` loop's
body neither breaks nor consults it, so the inner consumer continues
unconditionally. -/
def runIter : List attributeConfig → (List KeyValue → Bool) → List (List KeyValue × Bool)
  | [], _ => []
  | c :: rest, yield =>
      concatMapRange
        (fun i =>
          let attrs := [KeyValue.mk c.Name (sprintf09d i)]
          if rest.isEmpty then [(attrs, yield attrs)]
          else (runIter rest fun recAttrs => yield (attrs ++ recAttrs)).map
            fun pr => (attrs ++ pr.1, pr.2))
        c.Cardinality.toNat

theorem concatMapRange_map (g : α → β) (f : ℕ → List α) :
    ∀ n, (concatMapRange f n).map g = concatMapRange (fun i => (f i).map g) n := by
  intro n
  induction n with
  | zero => rfl
  | succ n ih => simp only [concatMapRange, List.map_append, ih]

theorem runIter_eq :
    ∀ (cfgs : List attributeConfig) (yield : List KeyValue → Bool),
      runIter cfgs yield = (iterateAttributes cfgs).map fun a => (a, yield a) := by
  intro cfgs
  induction cfgs with
  | nil => intro yield; rfl
  | cons c rest ih =>
      intro yield
      cases rest with
      | nil =>
          show concatMapRange _ _ = _
          rw [show iterateAttributes [c] =
            concatMapRange (fun i => [[KeyValue.mk c.Name (sprintf09d i)]])
              c.Cardinality.toNat from rfl]
          rw [concatMapRange_map]
          rfl
      | cons r rs =>
          show concatMapRange _ _ = _
          rw [show iterateAttributes (c :: r :: rs) =
            concatMapRange (fun i =>
              (iterateAttributes (r :: rs)).map
                fun recAttrs => [KeyValue.mk c.Name (sprintf09d i)] ++ recAttrs)
              c.Cardinality.toNat from rfl]
          rw [concatMapRange_map]
          congr 1
          funext i
          simp only [List.isEmpty_cons, Bool.false_eq_true, if_false]
          rw [ih]
          simp [List.map_map, Function.comp]

theorem concatMapRange_mem (f : ℕ → List α) (x : α) :
    ∀ n, x ∈ concatMapRange f n ↔ ∃ i, i < n ∧ x ∈ f i := by
  intro n
  induction n with
  | zero =>
      simp [concatMapRange]
  | succ n ih =>
      simp only [concatMapRange, List.mem_append, ih]
      constructor
      · rintro (⟨i, hi, hx⟩ | hx)
        · exact ⟨i, by omega, hx⟩
        · exact ⟨n, by omega, hx⟩
      · rintro ⟨i, hi, hx⟩
        rcases Nat.lt_or_ge i n with h2 | h2
        · exact Or.inl ⟨i, h2, hx⟩
        · have : i = n := by omega
          subst this
          exact Or.inr hx

/-- Numeric value of one decimal digit character (inverse of `digitChar`). -/
def digitVal (c : Char) : ℕ :=
  match c with
  | '1' => 1 | '2' => 2 | '3' => 3 | '4' => 4 | '5' => 5
  | '6' => 6 | '7' => 7 | '8' => 8 | '9' => 9 | _ => 0

/-- Value of a decimal digit string read most-significant-first. -/
def digitsVal (cs : List Char) : ℕ :=
  cs.foldl (fun a c => 10 * a + digitVal c) 0

theorem digitVal_digitChar (d : ℕ) (hd : d < 10) : digitVal (digitChar d) = d := by
  interval_cases d <;> rfl

theorem toDecimalAux_eq_digits_append :
    ∀ (n fuel : ℕ) (acc : List Char), n < fuel →
      toDecimalAux fuel n acc = decimalDigits n ++ acc := by
  intro n
  induction n using Nat.strong_induction_on with
  | _ n ih =>
      intro fuel acc hfuel
      match fuel, hfuel with
      | fuel + 1, hfuel =>
        by_cases h10 : n < 10
        · simp only [toDecimalAux, h10, if_true, decimalDigits]
          rfl
        · have hdivlt : n / 10 < n := Nat.div_lt_self (by omega) (by omega)
          simp only [toDecimalAux, h10, if_false]
          rw [ih (n / 10) hdivlt fuel _ (by omega)]
          have hrhs : decimalDigits n =
              decimalDigits (n / 10) ++ [digitChar (n % 10)] := by
            show toDecimalAux (n + 1) n [] = _
            simp only [toDecimalAux, h10, if_false]
            exact ih (n / 10) hdivlt n _ (by omega)
          rw [hrhs, List.append_assoc]
          rfl

theorem digitsVal_decimalDigits : ∀ n : ℕ, digitsVal (decimalDigits n) = n := by
  intro n
  induction n using Nat.strong_induction_on with
  | _ n ih =>
      by_cases h10 : n < 10
      · show digitsVal (toDecimalAux (n + 1) n []) = n
        simp only [toDecimalAux, h10, if_true]
        simp only [digitsVal, List.foldl_cons, List.foldl_nil,
          Nat.mod_eq_of_lt h10]
        rw [digitVal_digitChar n h10]
        omega
      · have hdivlt : n / 10 < n := Nat.div_lt_self (by omega) (by omega)
        have hsplit : decimalDigits n =
            decimalDigits (n / 10) ++ [digitChar (n % 10)] := by
          show toDecimalAux (n + 1) n [] = _
          simp only [toDecimalAux, h10, if_false]
          exact toDecimalAux_eq_digits_append (n / 10) n _ (by omega)
        rw [hsplit]
        show List.foldl _ 0 _ = n
        rw [List.foldl_append]
        show 10 * digitsVal (decimalDigits (n / 10)) + digitVal (digitChar (n % 10)) = n
        rw [ih (n / 10) hdivlt, digitVal_digitChar _ (by omega)]
        omega

theorem digitsVal_replicate_zero_append (s : List Char) :
    ∀ k, digitsVal (List.replicate k '0' ++ s) = digitsVal s := by
  have hz : ∀ k, List.foldl (fun a c => 10 * a + digitVal c) 0
      (List.replicate k '0') = 0 := by
    intro k
    induction k with
    | zero => rfl
    | succ k ihk => simp only [List.replicate_succ, List.foldl_cons]; exact ihk
  intro k
  show List.foldl _ 0 _ = _
  rw [List.foldl_append, hz]
  rfl

theorem sprintf09d_injective : Function.Injective sprintf09d := by
  intro m n h
  have hdata : (List.replicate (9 - (decimalDigits m).length) '0' ++ decimalDigits m)
      = (List.replicate (9 - (decimalDigits n).length) '0' ++ decimalDigits n) :=
    congrArg String.data h
  have hval := congrArg digitsVal hdata
  rw [digitsVal_replicate_zero_append, digitsVal_replicate_zero_append,
    digitsVal_decimalDigits, digitsVal_decimalDigits] at hval
  exact hval

theorem concatMapRange_nodup (f : ℕ → List α) :
    ∀ n, (∀ i, i < n → (f i).Nodup) →
      (∀ i j, i < j → j < n → ∀ x ∈ f i, x ∉ f j) →
      (concatMapRange f n).Nodup := by
  intro n
  induction n with
  | zero => intro _ _; exact List.nodup_nil
  | succ n ih =>
      intro hnd hdisj
      simp only [concatMapRange]
      rw [List.nodup_append]
      refine ⟨ih (fun i hi => hnd i (by omega))
        (fun i j hij hj => hdisj i j hij (by omega)), hnd n (by omega), ?_⟩
      intro x hx hxn
      rcases (concatMapRange_mem f x n).1 hx with ⟨i, hi, hxi⟩
      exact hdisj i n hi (by omega) x hxi hxn

theorem iterateAttributes_nodup : ∀ cfgs, (iterateAttributes cfgs).Nodup := by
  intro cfgs
  induction cfgs with
  | nil => exact List.nodup_nil
  | cons c rest ih =>
      have hkv : ∀ i j : ℕ,
          KeyValue.mk c.Name (sprintf09d i) = KeyValue.mk c.Name (sprintf09d j) →
          i = j := by
        intro i j hij
        exact sprintf09d_injective (congrArg KeyValue.value hij)
      cases rest with
      | nil =>
          rw [show iterateAttributes [c] =
            concatMapRange (fun i => [[KeyValue.mk c.Name (sprintf09d i)]])
              c.Cardinality.toNat from rfl]
          refine concatMapRange_nodup _ _ (fun i _ => by simp) ?_
          intro i j hij _ x hx hxj
          simp only [List.mem_singleton] at hx hxj
          rw [hx] at hxj
          have := hkv i j (by injection hxj)
          omega
      | cons r rs =>
          rw [show iterateAttributes (c :: r :: rs) =
            concatMapRange (fun i =>
              (iterateAttributes (r :: rs)).map
                fun recAttrs => [KeyValue.mk c.Name (sprintf09d i)] ++ recAttrs)
              c.Cardinality.toNat from rfl]
          refine concatMapRange_nodup _ _ ?_ ?_
          · intro i _
            refine List.Nodup.map ?_ ih
            intro x y hxy
            simpa using hxy
          · intro i j hij _ x hx hxj
            rcases List.mem_map.1 hx with ⟨t, _, ht⟩
            rcases List.mem_map.1 hxj with ⟨u, _, hu⟩
            rw [← ht] at hu
            have hheads := congrArg List.head? hu
            simp only [List.singleton_append, List.head?_cons] at hheads
            have := hkv j i (Option.some.inj hheads)
            omega

/-! ### Per-tick outcome classification (`tick` closure in `generate`) -/

/-- Kind of error value returned by `exporter.Export`; `deadlineExceeded`
is what `errors.Is(err, context.DeadlineExceeded)` recognises. -/
inductive ExportErr where
  | deadlineExceeded : ExportErr
  | canceled : ExportErr
  | other : String → ExportErr
deriving DecidableEq, Repr

/-- `errors.Is(err, context.DeadlineExceeded)` on the export error. -/
def errIsDeadlineExceeded : Option ExportErr → Bool
  | some ExportErr.deadlineExceeded => true
  | _ => false

/-- Observable outcome of one `tick()` execution. `fatalExit` is
`log.Fatalf` (prints the message and terminates the process with a
non-zero status); the other constructors are the non-fatal `log.Printf`
reports or the silent `return`. -/
inductive TickOutcome where
  | fatalExit : String → TickOutcome
  | reportTimeout : TickOutcome
  | silentReturn : TickOutcome
  | reportFailure : TickOutcome
  | reportSuccess : ℕ → TickOutcome
deriving DecidableEq, Repr

/-- Number of `gauge.Record` calls made in a tick's record phase: the
source loops over every gauge and, inside, over every attribute
combination, so the snapshot collected and exported for the tick holds
`numGauges * numCombos` data points. -/
def pointsRecorded (numGauges numCombos : ℕ) : ℕ := numGauges * numCombos

/-- Outcome of one `tick()` (cmd/firegen/main.go, `tick` closure):
a `reader.Collect` error is `log.Fatalf`; otherwise the export result is
classified by the if/else chain
`errors.Is(err, DeadlineExceeded)` / `ctx.Err() != nil` / `err != nil` /
success, where the success report prints `len(gauges)`. -/
def tickOutcome (numGauges : ℕ) (collectErr : Option String)
    (exportErr : Option ExportErr) (ctxDone : Bool) : TickOutcome :=
  match collectErr with
  | some msg => TickOutcome.fatalExit msg
  | none =>
      if errIsDeadlineExceeded exportErr then TickOutcome.reportTimeout
      else if ctxDone then TickOutcome.silentReturn
      else
        match exportErr with
        | some _ => TickOutcome.reportFailure
        | none => TickOutcome.reportSuccess numGauges

/-! ### Scheduler loop (`generate`, cmd/firegen/main.go lines 210-222) -/

/-- One resolution of the scheduler's `select`: either `ctx.Done()` was
taken or the ticker fired and `tick()` ran. -/
inductive LoopEvent where
  | ctxDone : LoopEvent
  | timerFire : LoopEvent
deriving DecidableEq, Repr

/-- Ticks executed by the `for { select ... } }` loop for a given
sequence of select resolutions: each timer firing runs one tick, and the
loop returns at the first `ctx.Done()` resolution, executing nothing
afterwards. -/
def loopTicks : List LoopEvent → ℕ
  | [] => 0
  | LoopEvent.ctxDone :: _ => 0
  | LoopEvent.timerFire :: rest => 1 + loopTicks rest

/-- Total ticks executed by `generate` after its setup: the source runs
`time.Sleep(offset)` — a plain sleep that does not observe the
cancellation context and always completes — then calls `tick()`
unconditionally, then enters the select loop.  The
`cancelDuringOffset` flag (whether the process-wide cancellation signal
fired before or during the offset sleep) is deliberately a parameter the
result does not depend on, because nothing on the source path from the
start of `generate` to the first `tick()` call consults `ctx`. -/
def generateTicks (_cancelDuringOffset : Bool) (events : List LoopEvent) : ℕ :=
  1 + loopTicks events

/-- `context.WithTimeout(ctx, exportTimeout)` yields a context that is
done as soon as the parent `ctx` is done or the timeout elapses, so the
bounded export call observes the process-wide cancellation signal. -/
def exportCtxDone (ctxDone deadlinePassed : Bool) : Bool :=
  ctxDone || deadlinePassed

/-! ### Export deadline (`exportTimeout`) -/

/-- Export deadline in `cmd/firegen/main.go` (`exportTimeout :=
time.Second`): a fixed one second (10^9 ns), taking the tick interval
as an argument only to show it is not consulted. -/
def exportTimeoutMain (_intervalNs : ℕ) : ℕ := 1000000000

/-- Export deadline in the other observed source variant
(`exportTimeout := interval / 4`): Go `time.Duration` division,
truncating integer division, with no floor. -/
def exportTimeoutVariant (intervalNs : ℕ) : ℕ := intervalNs / 4

/-- Modelled from the spec: the deadline the spec describes, "one
quarter of the interval, with a floor such as one second".  Used only as
the comparator for claim C6; neither source file computes this. -/
def specExportDeadline (intervalNs : ℕ) : ℕ := max (intervalNs / 4) 1000000000

/-! ### Configuration, clamping, and the reported totals (`main`) -/

/-- Go `config` struct (YAML-decoded fields, Go `int`). -/
structure config where
  Metrics : ℤ
  Interval : ℤ
  Services : ℤ
  Attributes : List attributeConfig
deriving DecidableEq, Repr

/-- The clamping performed by `main` right after decoding:
`max(1, ...)` on the three scalars and on every attribute cardinality. -/
def clampConfig (cfg : config) : config :=
  { Metrics := max 1 cfg.Metrics
    Interval := max 1 cfg.Interval
    Services := max 1 cfg.Services
    Attributes := cfg.Attributes.map fun a =>
      { Name := a.Name, Cardinality := max 1 a.Cardinality } }

/-- Two's-complement wrap-around of Go `int` (64-bit) arithmetic. -/
def wrapInt64 (x : ℤ) : ℤ := (x + 2 ^ 63) % 2 ^ 64 - 2 ^ 63

/-- `attrCardinality := 1; for ... { attrCardinality *= cfg.Attributes[i].Cardinality }`
with Go 64-bit `int` multiplication. -/
def attrCardinality (attrs : List attributeConfig) : ℤ :=
  attrs.foldl (fun acc a => wrapInt64 (acc * a.Cardinality)) 1

/-- The value printed by `log.Printf("Total series %d",
cfg.Services*cfg.Metrics*attrCardinality)` (left-associated Go `int`
multiplication). -/
def totalSeriesReported (cfg : config) : ℤ :=
  wrapInt64 (wrapInt64 (cfg.Services * cfg.Metrics) * attrCardinality cfg.Attributes)

theorem wrapInt64_eq_self {x : ℤ} (h1 : -(2 ^ 63) ≤ x) (h2 : x < 2 ^ 63) :
    wrapInt64 x = x := by
  unfold wrapInt64
  have h3 : 0 ≤ x + 2 ^ 63 := by omega
  have h4 : x + 2 ^ 63 < 2 ^ 64 := by omega
  rw [Int.emod_eq_of_lt h3 h4]
  omega

theorem one_le_listProd_int :
    ∀ l : List ℤ, (∀ x ∈ l, 1 ≤ x) → 1 ≤ l.prod := by
  intro l
  induction l with
  | nil => intro _; simp
  | cons x xs ih =>
      intro h
      rw [List.prod_cons]
      have hx := h x (List.mem_cons_self x xs)
      have hxs := ih fun y hy => h y (List.mem_cons_of_mem x hy)
      nlinarith

theorem attrCardinality_foldl_eq (attrs : List attributeConfig) :
    ∀ acc : ℤ, 1 ≤ acc →
      (∀ a ∈ attrs, 1 ≤ a.Cardinality) →
      acc * (attrs.map fun a => a.Cardinality).prod < 2 ^ 63 →
      attrs.foldl (fun acc a => wrapInt64 (acc * a.Cardinality)) acc =
        acc * (attrs.map fun a => a.Cardinality).prod := by
  induction attrs with
  | nil => intro acc _ _ _; simp
  | cons a rest ih =>
      intro acc hacc hall hbound
      have ha : 1 ≤ a.Cardinality := hall a (List.mem_cons_self a rest)
      have hrest : ∀ b ∈ rest, 1 ≤ b.Cardinality :=
        fun b hb => hall b (List.mem_cons_of_mem a hb)
      have hprodrest : 1 ≤ (rest.map fun b => b.Cardinality).prod := by
        apply one_le_listProd_int
        intro x hx
        rcases List.mem_map.1 hx with ⟨b, hb, hbx⟩
        rw [← hbx]
        exact hrest b hb
      have haccmul : 1 ≤ acc * a.Cardinality := by
        have h1 := mul_le_mul hacc ha (by omega) (by omega)
        simpa using h1
      have hle : acc * a.Cardinality ≤
          acc * ((a :: rest).map fun b => b.Cardinality).prod := by
        rw [List.map_cons, List.prod_cons, ← mul_assoc]
        nlinarith [haccmul, hprodrest]
      have hstep : wrapInt64 (acc * a.Cardinality) = acc * a.Cardinality := by
        apply wrapInt64_eq_self
        · omega
        · calc acc * a.Cardinality
              ≤ acc * ((a :: rest).map fun b => b.Cardinality).prod := hle
            _ < 2 ^ 63 := hbound
      rw [List.foldl_cons, hstep]
      rw [ih (acc * a.Cardinality) haccmul hrest
        (by rw [List.map_cons, List.prod_cons, ← mul_assoc] at hbound; exact hbound)]
      rw [List.map_cons, List.prod_cons, ← mul_assoc]

/-! ### Exact binary32 (float32) arithmetic, for the stagger offset

`main` computes
`offset := time.Duration(float32(interval) * float32(i) / float32(cfg.Services))`.
Go evaluates this in IEEE-754 binary32: each conversion and each
arithmetic operation rounds to nearest, ties to even, with a 24-bit
significand; the final `time.Duration(...)` conversion truncates toward
zero.  The model below represents every float value exactly (as an
integer significand times a power of two) with an unbounded exponent:
for all values reachable from the program's integer inputs the reachable
magnitudes are far from both the subnormal range and overflow, so the
model coincides with binary32 there. -/

/-- Two to an integer power, as a rational. -/
def pow2 (e : ℤ) : ℚ :=
  match e with
  | Int.ofNat k => ((2 ^ k : ℕ) : ℚ)
  | Int.negSucc k => 1 / ((2 ^ (k + 1) : ℕ) : ℚ)

theorem pow2_eq_zpow (e : ℤ) : pow2 e = (2 : ℚ) ^ e := by
  match e with
  | Int.ofNat k =>
      show ((2 ^ k : ℕ) : ℚ) = (2 : ℚ) ^ (Int.ofNat k)
      rw [show Int.ofNat k = (k : ℤ) from rfl, zpow_natCast]
      push_cast
      ring
  | Int.negSucc k =>
      show 1 / ((2 ^ (k + 1) : ℕ) : ℚ) = (2 : ℚ) ^ (Int.negSucc k)
      rw [zpow_negSucc, one_div]
      congr 1
      push_cast
      ring

theorem pow2_pos (e : ℤ) : 0 < pow2 e := by
  rw [pow2_eq_zpow]
  exact zpow_pos (by norm_num) e

theorem pow2_add (a b : ℤ) : pow2 (a + b) = pow2 a * pow2 b := by
  rw [pow2_eq_zpow, pow2_eq_zpow, pow2_eq_zpow]
  exact zpow_add₀ (by norm_num) a b

theorem pow2_lt_pow2 {a b : ℤ} (h : a < b) : pow2 a < pow2 b := by
  rw [pow2_eq_zpow, pow2_eq_zpow]
  exact zpow_lt_zpow_right₀ (by norm_num) h

theorem pow2_le_pow2 {a b : ℤ} (h : a ≤ b) : pow2 a ≤ pow2 b := by
  rcases lt_or_eq_of_le h with h1 | h1
  · exact le_of_lt (pow2_lt_pow2 h1)
  · rw [h1]

theorem pow2_lt_iff {a b : ℤ} : pow2 a < pow2 b ↔ a < b := by
  constructor
  · intro h
    by_contra hab
    have := pow2_le_pow2 (by omega : b ≤ a)
    linarith
  · exact pow2_lt_pow2

theorem pow2_natCast (k : ℕ) : pow2 (k : ℤ) = ((2 ^ k : ℕ) : ℚ) := rfl

theorem pow2_neg (e : ℤ) : pow2 (-e) = 1 / pow2 e := by
  rw [pow2_eq_zpow, pow2_eq_zpow, zpow_neg, one_div]

theorem pow2_toNat {e : ℤ} (h : 0 ≤ e) : pow2 e = ((2 ^ e.toNat : ℕ) : ℚ) := by
  rw [← pow2_natCast, Int.toNat_of_nonneg h]

theorem pow2_neg_toNat {e : ℤ} (h : e < 0) :
    pow2 e = 1 / ((2 ^ (-e).toNat : ℕ) : ℚ) := by
  have h2 : -(((-e).toNat : ℕ) : ℤ) = e := by omega
  calc pow2 e = pow2 (-(((-e).toNat : ℕ) : ℤ)) := by rw [h2]
    _ = 1 / pow2 (((-e).toNat : ℕ) : ℤ) := pow2_neg _
    _ = 1 / ((2 ^ (-e).toNat : ℕ) : ℚ) := by rw [pow2_natCast]

/-- Fuel-driven base-2 logarithm (`⌊log₂ n⌋` once the fuel covers `n`). -/
def log2fuel : ℕ → ℕ → ℕ
  | 0, _ => 0
  | fuel + 1, n => if n < 2 then 0 else log2fuel fuel (n / 2) + 1

/-- `⌊log₂ n⌋` for `n ≥ 1`. -/
def nlog2 (n : ℕ) : ℕ := log2fuel n n

theorem log2fuel_bounds :
    ∀ (fuel n : ℕ), 1 ≤ n → n ≤ fuel →
      2 ^ log2fuel fuel n ≤ n ∧ n < 2 ^ (log2fuel fuel n + 1) := by
  intro fuel
  induction fuel with
  | zero => intro n h1 h2; omega
  | succ fuel ih =>
      intro n h1 h2
      by_cases h : n < 2
      · have hn : n = 1 := by omega
        simp [log2fuel, h, hn]
      · have hrec := ih (n / 2) (by omega) (by omega)
        simp only [log2fuel, h, if_false]
        constructor
        · have := hrec.1
          calc 2 ^ (log2fuel fuel (n / 2) + 1) = 2 * 2 ^ log2fuel fuel (n / 2) := by ring
            _ ≤ 2 * (n / 2) := by omega
            _ ≤ n := by omega
        · have := hrec.2
          calc n < 2 * (n / 2) + 2 := by omega
            _ ≤ 2 * 2 ^ (log2fuel fuel (n / 2) + 1) := by omega
            _ = 2 ^ (log2fuel fuel (n / 2) + 1 + 1) := by ring

theorem nlog2_bounds (n : ℕ) (h : 1 ≤ n) :
    2 ^ nlog2 n ≤ n ∧ n < 2 ^ (nlog2 n + 1) :=
  log2fuel_bounds n n h (Nat.le_refl n)

/-- Round a rational to the nearest integer, ties to even. -/
def rneQ (s : ℚ) : ℤ :=
  if s - (⌊s⌋ : ℚ) < 1 / 2 then ⌊s⌋
  else if (1 / 2 : ℚ) < s - (⌊s⌋ : ℚ) then ⌊s⌋ + 1
  else if ⌊s⌋ % 2 = 0 then ⌊s⌋ else ⌊s⌋ + 1

theorem floor_le_rneQ (s : ℚ) : ⌊s⌋ ≤ rneQ s := by
  unfold rneQ
  split
  · omega
  split
  · omega
  split <;> omega

theorem rneQ_le_floor_add_one (s : ℚ) : rneQ s ≤ ⌊s⌋ + 1 := by
  unfold rneQ
  split
  · omega
  split
  · omega
  split <;> omega

theorem rneQ_mono {s t : ℚ} (h : s ≤ t) : rneQ s ≤ rneQ t := by
  have hfl : ⌊s⌋ ≤ ⌊t⌋ := Int.floor_mono h
  rcases lt_or_eq_of_le hfl with hlt | heq
  · calc rneQ s ≤ ⌊s⌋ + 1 := rneQ_le_floor_add_one s
      _ ≤ ⌊t⌋ := by omega
      _ ≤ rneQ t := floor_le_rneQ t
  · have hfrac : s - (⌊s⌋ : ℚ) ≤ t - (⌊t⌋ : ℚ) := by
      rw [← heq]
      linarith
    unfold rneQ
    by_cases hs1 : s - (⌊s⌋ : ℚ) < 1 / 2
    · rw [if_pos hs1]
      split
      · omega
      split
      · omega
      split <;> omega
    · rw [if_neg hs1]
      have hs2 : (1 / 2 : ℚ) ≤ s - (⌊s⌋ : ℚ) := le_of_not_lt hs1
      have ht1 : ¬ (t - (⌊t⌋ : ℚ) < 1 / 2) := by
        intro hc
        linarith
      rw [if_neg ht1]
      by_cases hs3 : (1 / 2 : ℚ) < s - (⌊s⌋ : ℚ)
      · have ht3 : (1 / 2 : ℚ) < t - (⌊t⌋ : ℚ) := by linarith
        rw [if_pos hs3, if_pos ht3]
        omega
      · rw [if_neg hs3]
        by_cases ht3 : (1 / 2 : ℚ) < t - (⌊t⌋ : ℚ)
        · rw [if_pos ht3]
          split <;> omega
        · rw [if_neg ht3, heq]

/-- Round `A / B` (naturals) to the nearest natural, ties to even; the
integer form of `rneQ` used by the executable float32 model. -/
def rneNat (A B : ℕ) : ℕ :=
  if 2 * (A % B) < B then A / B
  else if B < 2 * (A % B) then A / B + 1
  else if (A / B) % 2 = 0 then A / B else A / B + 1

theorem natCast_div_split (A B : ℕ) (hB : 0 < B) :
    (A : ℚ) / (B : ℚ) = ((A / B : ℕ) : ℚ) + ((A % B : ℕ) : ℚ) / (B : ℚ) := by
  have hBQ : (B : ℚ) ≠ 0 := by
    have : (0 : ℚ) < (B : ℚ) := by exact_mod_cast hB
    exact ne_of_gt this
  have key : (B : ℚ) * ((A / B : ℕ) : ℚ) + ((A % B : ℕ) : ℚ) = (A : ℚ) := by
    exact_mod_cast Nat.div_add_mod A B
  rw [← key, add_div, mul_comm, mul_div_assoc, div_self hBQ, mul_one]

theorem floor_natCast_div (A B : ℕ) (hB : 0 < B) :
    ⌊(A : ℚ) / (B : ℚ)⌋ = ((A / B : ℕ) : ℤ) := by
  have hBQ : (0 : ℚ) < (B : ℚ) := by exact_mod_cast hB
  rw [natCast_div_split A B hB]
  have hfr0 : (0 : ℚ) ≤ ((A % B : ℕ) : ℚ) / (B : ℚ) :=
    div_nonneg (by positivity) (le_of_lt hBQ)
  have hfr1 : ((A % B : ℕ) : ℚ) / (B : ℚ) < 1 := by
    rw [div_lt_one hBQ]
    exact_mod_cast Nat.mod_lt A hB
  have hcast : ((A / B : ℕ) : ℚ) = (((A / B : ℕ) : ℤ) : ℚ) := by norm_cast
  rw [hcast, add_comm, Int.floor_add_int]
  rw [Int.floor_eq_zero_iff.2 ⟨hfr0, hfr1⟩]
  ring

theorem rneNat_eq_rneQ (A B : ℕ) (hB : 0 < B) :
    (rneNat A B : ℤ) = rneQ ((A : ℚ) / (B : ℚ)) := by
  have hBQ : (0 : ℚ) < (B : ℚ) := by exact_mod_cast hB
  have hfl := floor_natCast_div A B hB
  have hfrac : (A : ℚ) / (B : ℚ) - (⌊(A : ℚ) / (B : ℚ)⌋ : ℚ)
      = ((A % B : ℕ) : ℚ) / (B : ℚ) := by
    rw [hfl, natCast_div_split A B hB]
    rw [show ((((A / B : ℕ) : ℤ)) : ℚ) = ((A / B : ℕ) : ℚ) from by norm_cast]
    ring
  have hlt : (((A % B : ℕ) : ℚ) / (B : ℚ) < 1 / 2) ↔ 2 * (A % B) < B := by
    rw [div_lt_div_iff₀ hBQ (by norm_num), one_mul]
    rw [show ((A % B : ℕ) : ℚ) * 2 = ((2 * (A % B) : ℕ) : ℚ) from by push_cast; ring]
    exact Nat.cast_lt
  have hgt : ((1 / 2 : ℚ) < ((A % B : ℕ) : ℚ) / (B : ℚ)) ↔ B < 2 * (A % B) := by
    rw [div_lt_div_iff₀ (by norm_num) hBQ, one_mul]
    rw [show ((A % B : ℕ) : ℚ) * 2 = ((2 * (A % B) : ℕ) : ℚ) from by push_cast; ring]
    exact Nat.cast_lt
  unfold rneQ rneNat
  rw [hfrac, hfl]
  by_cases h1 : 2 * (A % B) < B
  · rw [if_pos h1, if_pos (hlt.2 h1)]
  · rw [if_neg h1, if_neg (fun hc => h1 (hlt.1 hc))]
    by_cases h2 : B < 2 * (A % B)
    · rw [if_pos h2, if_pos (hgt.2 h2)]
      push_cast
      ring
    · rw [if_neg h2, if_neg (fun hc => h2 (hgt.1 hc))]
      by_cases h3 : (A / B) % 2 = 0
      · rw [if_pos h3, if_pos (by omega)]
      · rw [if_neg h3, if_neg (by omega)]
        push_cast
        ring

theorem pow2_neg_natCast (k : ℕ) : pow2 (-(k : ℤ)) = 1 / ((2 ^ k : ℕ) : ℚ) := by
  rw [pow2_neg, pow2_natCast]

/-- Binary exponent of the positive rational `a / b`: the unique `e`
with `2 ^ e ≤ a / b < 2 ^ (e + 1)`, computed with natural-number
arithmetic only. -/
def qexpNat (a b : ℕ) : ℤ :=
  if b ≤ a then (nlog2 (a / b) : ℤ)
  else
    if a * 2 ^ nlog2 (b / a) = b then -(nlog2 (b / a) : ℤ)
    else -(nlog2 (b / a) : ℤ) - 1

theorem qexpNat_bounds (a b : ℕ) (ha : 0 < a) (hb : 0 < b) :
    pow2 (qexpNat a b) ≤ (a : ℚ) / (b : ℚ) ∧
      (a : ℚ) / (b : ℚ) < pow2 (qexpNat a b + 1) := by
  have haQ : (0 : ℚ) < (a : ℚ) := by exact_mod_cast ha
  have hbQ : (0 : ℚ) < (b : ℚ) := by exact_mod_cast hb
  by_cases hba : b ≤ a
  · have hq : 1 ≤ a / b := (Nat.one_le_div_iff hb).2 hba
    obtain ⟨hk1, hk2⟩ := nlog2_bounds (a / b) hq
    have hqe : qexpNat a b = (nlog2 (a / b) : ℤ) := by
      unfold qexpNat
      rw [if_pos hba]
    rw [hqe]
    constructor
    · rw [pow2_natCast, le_div_iff₀ hbQ]
      have hnat : 2 ^ nlog2 (a / b) * b ≤ a := by
        calc 2 ^ nlog2 (a / b) * b ≤ a / b * b := Nat.mul_le_mul_right b hk1
          _ ≤ a := Nat.div_mul_le_self a b
      exact_mod_cast hnat
    · rw [show (nlog2 (a / b) : ℤ) + 1 = ((nlog2 (a / b) + 1 : ℕ) : ℤ) from by push_cast; ring]
      rw [pow2_natCast, div_lt_iff₀ hbQ]
      have hnat : a < 2 ^ (nlog2 (a / b) + 1) * b :=
        (Nat.div_lt_iff_lt_mul hb).1 hk2
      exact_mod_cast hnat
  · have hab : a < b := by omega
    have hm : 1 ≤ b / a := (Nat.one_le_div_iff ha).2 (by omega)
    set k := nlog2 (b / a) with hkdef
    obtain ⟨hk1, hk2⟩ := nlog2_bounds (b / a) hm
    have key1 : a * 2 ^ k ≤ b := by
      calc a * 2 ^ k ≤ a * (b / a) := Nat.mul_le_mul_left a hk1
        _ ≤ b := Nat.mul_div_le b a
    have key2 : b < a * 2 ^ (k + 1) := by
      rw [Nat.mul_comm]
      exact (Nat.div_lt_iff_lt_mul ha).1 hk2
    by_cases heq : a * 2 ^ k = b
    · have hqe : qexpNat a b = -(k : ℤ) := by
        unfold qexpNat
        rw [if_neg (by omega), ← hkdef, if_pos heq]
      have hvaleq : (a : ℚ) / (b : ℚ) = 1 / ((2 ^ k : ℕ) : ℚ) := by
        rw [← heq]
        push_cast
        rw [div_mul_eq_div_div, div_self (ne_of_gt haQ)]
      rw [hqe, hvaleq]
      constructor
      · rw [pow2_neg_natCast]
      · rw [← pow2_neg_natCast]
        exact pow2_lt_pow2 (by omega)
    · have hlt : a * 2 ^ k < b := by omega
      have hqe : qexpNat a b = -(k : ℤ) - 1 := by
        unfold qexpNat
        rw [if_neg (by omega), ← hkdef, if_neg heq]
      rw [hqe]
      constructor
      · rw [show -(k : ℤ) - 1 = -((k + 1 : ℕ) : ℤ) from by push_cast; ring]
        rw [pow2_neg_natCast, div_le_div_iff₀ (by positivity) hbQ, one_mul]
        have hnat : b ≤ a * 2 ^ (k + 1) := le_of_lt key2
        exact_mod_cast hnat
      · rw [show -(k : ℤ) - 1 + 1 = -(k : ℤ) from by ring]
        rw [pow2_neg_natCast, div_lt_div_iff₀ hbQ (by positivity), one_mul]
        exact_mod_cast hlt

theorem qexpNat_mono {a1 b1 a2 b2 : ℕ} (ha1 : 0 < a1) (hb1 : 0 < b1)
    (ha2 : 0 < a2) (hb2 : 0 < b2)
    (h : (a1 : ℚ) / (b1 : ℚ) ≤ (a2 : ℚ) / (b2 : ℚ)) :
    qexpNat a1 b1 ≤ qexpNat a2 b2 := by
  obtain ⟨h1, _⟩ := qexpNat_bounds a1 b1 ha1 hb1
  obtain ⟨_, h2⟩ := qexpNat_bounds a2 b2 ha2 hb2
  have : pow2 (qexpNat a1 b1) < pow2 (qexpNat a2 b2 + 1) := by linarith
  have := pow2_lt_iff.1 this
  omega

/-- A non-negative binary floating-point value, represented exactly:
significand `m` times `2 ^ e`. -/
structure F32 where
  m : ℕ
  e : ℤ
deriving DecidableEq, Repr

/-- Exact rational value of an `F32`. -/
def F32.val (x : F32) : ℚ := (x.m : ℚ) * pow2 x.e

theorem F32.val_nonneg (x : F32) : 0 ≤ x.val :=
  mul_nonneg (Nat.cast_nonneg x.m) (le_of_lt (pow2_pos x.e))

theorem F32.val_pos {x : F32} (h : 0 < x.m) : 0 < x.val :=
  mul_pos (by exact_mod_cast h) (pow2_pos x.e)

theorem F32.m_pos_of_val_pos {x : F32} (h : 0 < x.val) : 0 < x.m := by
  rcases Nat.eq_zero_or_pos x.m with h0 | h0
  · exfalso
    have hv : x.val = 0 := by
      unfold F32.val
      rw [h0]
      simp
    rw [hv] at h
    exact lt_irrefl 0 h
  · exact h0

/-- Round the non-negative rational `a / b` to the nearest binary32
value (round to nearest, ties to even, 24-bit significand, unbounded
exponent): scale into the binade `[2^23, 2^24)` and round the
significand to an integer. -/
def rndPair (a b : ℕ) : F32 :=
  if a = 0 then ⟨0, 0⟩
  else
    if 0 ≤ qexpNat a b - 23 then
      ⟨rneNat a (b * 2 ^ (qexpNat a b - 23).toNat), qexpNat a b - 23⟩
    else ⟨rneNat (a * 2 ^ (-(qexpNat a b - 23)).toNat) b, qexpNat a b - 23⟩

theorem rndPair_val (a b : ℕ) (ha : 0 < a) (hb : 0 < b) :
    (rndPair a b).val =
      (rneQ ((a : ℚ) / (b : ℚ) / pow2 (qexpNat a b - 23)) : ℚ) *
        pow2 (qexpNat a b - 23) := by
  unfold rndPair
  rw [if_neg (by omega)]
  by_cases hE : 0 ≤ qexpNat a b - 23
  · rw [if_pos hE]
    show ((rneNat a (b * 2 ^ (qexpNat a b - 23).toNat) : ℕ) : ℚ) *
        pow2 (qexpNat a b - 23) = _
    congr 1
    have hBpos : 0 < b * 2 ^ (qexpNat a b - 23).toNat := by positivity
    have h1 := rneNat_eq_rneQ a (b * 2 ^ (qexpNat a b - 23).toNat) hBpos
    have h2 : ((b * 2 ^ (qexpNat a b - 23).toNat : ℕ) : ℚ) =
        (b : ℚ) * pow2 (qexpNat a b - 23) := by
      rw [pow2_toNat hE]
      push_cast
      ring
    rw [h2] at h1
    rw [div_mul_eq_div_div] at h1
    exact_mod_cast h1
  · rw [if_neg hE]
    show ((rneNat (a * 2 ^ (-(qexpNat a b - 23)).toNat) b : ℕ) : ℚ) *
        pow2 (qexpNat a b - 23) = _
    congr 1
    have h1 := rneNat_eq_rneQ (a * 2 ^ (-(qexpNat a b - 23)).toNat) b hb
    have h2 : ((a * 2 ^ (-(qexpNat a b - 23)).toNat : ℕ) : ℚ) / (b : ℚ) =
        (a : ℚ) / (b : ℚ) / pow2 (qexpNat a b - 23) := by
      rw [pow2_neg_toNat (by omega), one_div, div_inv_eq_mul]
      push_cast
      rw [div_mul_eq_mul_div]
    rw [h2] at h1
    exact_mod_cast h1

theorem rndPair_zero (b : ℕ) : rndPair 0 b = ⟨0, 0⟩ := by
  unfold rndPair
  rw [if_pos rfl]

theorem rndPair_val_lower (a b : ℕ) (ha : 0 < a) (hb : 0 < b) :
    pow2 (qexpNat a b) ≤ (rndPair a b).val := by
  have hbounds := qexpNat_bounds a b ha hb
  have hppos := pow2_pos (qexpNat a b - 23)
  have h23 : pow2 (23 : ℤ) = ((2 ^ 23 : ℕ) : ℚ) := rfl
  have hs : pow2 (23 : ℤ) ≤ (a : ℚ) / (b : ℚ) / pow2 (qexpNat a b - 23) := by
    have hsplit : pow2 (qexpNat a b) = pow2 (23 : ℤ) * pow2 (qexpNat a b - 23) := by
      rw [← pow2_add]
      congr 1
      ring
    rw [le_div_iff₀ hppos, ← hsplit]
    exact hbounds.1
  have hfloor : (2 ^ 23 : ℤ) ≤ ⌊(a : ℚ) / (b : ℚ) / pow2 (qexpNat a b - 23)⌋ := by
    rw [Int.le_floor]
    calc ((2 ^ 23 : ℤ) : ℚ) = pow2 (23 : ℤ) := by rw [h23]; norm_cast
      _ ≤ _ := hs
  have hrne : (2 ^ 23 : ℤ) ≤ rneQ ((a : ℚ) / (b : ℚ) / pow2 (qexpNat a b - 23)) :=
    le_trans hfloor (floor_le_rneQ _)
  rw [rndPair_val a b ha hb]
  calc pow2 (qexpNat a b) = pow2 (23 : ℤ) * pow2 (qexpNat a b - 23) := by
        rw [← pow2_add]; congr 1; ring
    _ ≤ (rneQ ((a : ℚ) / (b : ℚ) / pow2 (qexpNat a b - 23)) : ℚ) *
          pow2 (qexpNat a b - 23) := by
        apply mul_le_mul_of_nonneg_right _ (le_of_lt hppos)
        calc pow2 (23 : ℤ) = ((2 ^ 23 : ℤ) : ℚ) := by rw [h23]; norm_cast
          _ ≤ _ := by exact_mod_cast hrne

theorem rndPair_val_upper (a b : ℕ) (ha : 0 < a) (hb : 0 < b) :
    (rndPair a b).val ≤ pow2 (qexpNat a b + 1) := by
  have hbounds := qexpNat_bounds a b ha hb
  have hppos := pow2_pos (qexpNat a b - 23)
  have h24 : pow2 (24 : ℤ) = ((2 ^ 24 : ℕ) : ℚ) := rfl
  have hs : (a : ℚ) / (b : ℚ) / pow2 (qexpNat a b - 23) < pow2 (24 : ℤ) := by
    have hsplit : pow2 (qexpNat a b + 1) = pow2 (24 : ℤ) * pow2 (qexpNat a b - 23) := by
      rw [← pow2_add]
      congr 1
      ring
    rw [div_lt_iff₀ hppos, ← hsplit]
    exact hbounds.2
  have hfloor : ⌊(a : ℚ) / (b : ℚ) / pow2 (qexpNat a b - 23)⌋ < (2 ^ 24 : ℤ) := by
    rw [Int.floor_lt]
    calc (a : ℚ) / (b : ℚ) / pow2 (qexpNat a b - 23) < pow2 (24 : ℤ) := hs
      _ = ((2 ^ 24 : ℤ) : ℚ) := by rw [h24]; norm_cast
  have hrne : rneQ ((a : ℚ) / (b : ℚ) / pow2 (qexpNat a b - 23)) ≤ (2 ^ 24 : ℤ) := by
    have := rneQ_le_floor_add_one ((a : ℚ) / (b : ℚ) / pow2 (qexpNat a b - 23))
    omega
  rw [rndPair_val a b ha hb]
  calc (rneQ ((a : ℚ) / (b : ℚ) / pow2 (qexpNat a b - 23)) : ℚ) *
        pow2 (qexpNat a b - 23)
      ≤ pow2 (24 : ℤ) * pow2 (qexpNat a b - 23) := by
        apply mul_le_mul_of_nonneg_right _ (le_of_lt hppos)
        calc (rneQ ((a : ℚ) / (b : ℚ) / pow2 (qexpNat a b - 23)) : ℚ)
            ≤ ((2 ^ 24 : ℤ) : ℚ) := by exact_mod_cast hrne
          _ = pow2 (24 : ℤ) := by rw [h24]; norm_cast
    _ = pow2 (qexpNat a b + 1) := by rw [← pow2_add]; congr 1; ring

theorem rndPair_val_pos (a b : ℕ) (ha : 0 < a) (hb : 0 < b) :
    0 < (rndPair a b).val :=
  lt_of_lt_of_le (pow2_pos (qexpNat a b)) (rndPair_val_lower a b ha hb)

theorem rndPair_val_mono {a1 b1 a2 b2 : ℕ} (hb1 : 0 < b1) (hb2 : 0 < b2)
    (h : (a1 : ℚ) / (b1 : ℚ) ≤ (a2 : ℚ) / (b2 : ℚ)) :
    (rndPair a1 b1).val ≤ (rndPair a2 b2).val := by
  rcases Nat.eq_zero_or_pos a1 with ha1 | ha1
  · subst ha1
    rw [rndPair_zero]
    calc (F32.mk 0 0).val = 0 := by simp [F32.val]
      _ ≤ (rndPair a2 b2).val := F32.val_nonneg _
  · have ha2 : 0 < a2 := by
      rcases Nat.eq_zero_or_pos a2 with h0 | h0
      · exfalso
        subst h0
        have h1 : (0 : ℚ) < (a1 : ℚ) / (b1 : ℚ) := by
          apply div_pos
          · exact_mod_cast ha1
          · exact_mod_cast hb1
        rw [show ((0 : ℕ) : ℚ) / (b2 : ℚ) = 0 from by simp] at h
        linarith
      · exact h0
    have hE := qexpNat_mono ha1 hb1 ha2 hb2 h
    rcases lt_or_eq_of_le hE with hlt | heq
    · calc (rndPair a1 b1).val ≤ pow2 (qexpNat a1 b1 + 1) :=
            rndPair_val_upper a1 b1 ha1 hb1
        _ ≤ pow2 (qexpNat a2 b2) := pow2_le_pow2 (by omega)
        _ ≤ (rndPair a2 b2).val := rndPair_val_lower a2 b2 ha2 hb2
    · rw [rndPair_val a1 b1 ha1 hb1, rndPair_val a2 b2 ha2 hb2, heq]
      apply mul_le_mul_of_nonneg_right _ (le_of_lt (pow2_pos _))
      have hsle : (a1 : ℚ) / (b1 : ℚ) / pow2 (qexpNat a2 b2 - 23) ≤
          (a2 : ℚ) / (b2 : ℚ) / pow2 (qexpNat a2 b2 - 23) :=
        div_le_div_of_nonneg_right h (le_of_lt (pow2_pos _))
      exact_mod_cast rneQ_mono hsle

/-- Go `float32(n)` for a non-negative integer. -/
def f32OfNat (n : ℕ) : F32 := rndPair n 1

/-- IEEE binary32 multiplication on the exact representation: multiply
exactly, then round. -/
def f32Mul (x y : F32) : F32 :=
  if 0 ≤ x.e + y.e then rndPair (x.m * y.m * 2 ^ (x.e + y.e).toNat) 1
  else rndPair (x.m * y.m) (2 ^ (-(x.e + y.e)).toNat)

/-- IEEE binary32 division on the exact representation: divide exactly,
then round. -/
def f32Div (x y : F32) : F32 :=
  if 0 ≤ x.e - y.e then rndPair (x.m * 2 ^ (x.e - y.e).toNat) y.m
  else rndPair x.m (y.m * 2 ^ (-(x.e - y.e)).toNat)

/-- Go `time.Duration(f)` for a non-negative float: conversion to an
integer count of nanoseconds, truncating toward zero. -/
def f32Trunc (x : F32) : ℕ :=
  if 0 ≤ x.e then x.m * 2 ^ x.e.toNat else x.m / 2 ^ (-x.e).toNat

theorem f32Mul_eq_rndPair (x y : F32) :
    ∃ A B : ℕ, 0 < B ∧ f32Mul x y = rndPair A B ∧
      (A : ℚ) / (B : ℚ) = x.val * y.val := by
  have hval : x.val * y.val = ((x.m * y.m : ℕ) : ℚ) * pow2 (x.e + y.e) := by
    unfold F32.val
    rw [pow2_add]
    push_cast
    ring
  unfold f32Mul
  by_cases hE : 0 ≤ x.e + y.e
  · refine ⟨x.m * y.m * 2 ^ (x.e + y.e).toNat, 1, one_pos, by rw [if_pos hE], ?_⟩
    rw [Nat.cast_one, div_one, hval, pow2_toNat hE]
    push_cast
    ring
  · refine ⟨x.m * y.m, 2 ^ (-(x.e + y.e)).toNat, by positivity, by rw [if_neg hE], ?_⟩
    rw [hval, pow2_neg_toNat (by omega)]
    push_cast
    ring

theorem f32Div_eq_rndPair (x y : F32) (hy : 0 < y.m) :
    ∃ A B : ℕ, 0 < B ∧ f32Div x y = rndPair A B ∧
      (A : ℚ) / (B : ℚ) = x.val / y.val := by
  have hymQ : ((y.m : ℚ)) ≠ 0 := by
    have : (0 : ℚ) < (y.m : ℚ) := by exact_mod_cast hy
    exact ne_of_gt this
  unfold f32Div
  by_cases hE : 0 ≤ x.e - y.e
  · refine ⟨x.m * 2 ^ (x.e - y.e).toNat, y.m, hy, by rw [if_pos hE], ?_⟩
    have hp : pow2 x.e = pow2 (x.e - y.e) * pow2 y.e := by
      rw [← pow2_add]
      congr 1
      ring
    have hval : x.val / y.val = ((x.m : ℚ) * pow2 (x.e - y.e)) / (y.m : ℚ) := by
      unfold F32.val
      rw [hp, show (x.m : ℚ) * (pow2 (x.e - y.e) * pow2 y.e) =
        ((x.m : ℚ) * pow2 (x.e - y.e)) * pow2 y.e from by ring]
      rw [mul_div_mul_right _ _ (ne_of_gt (pow2_pos y.e))]
    rw [hval, pow2_toNat hE]
    push_cast
    ring
  · refine ⟨x.m, y.m * 2 ^ (-(x.e - y.e)).toNat, by positivity, by rw [if_neg hE], ?_⟩
    have hp : pow2 y.e = pow2 (y.e - x.e) * pow2 x.e := by
      rw [← pow2_add]
      congr 1
      ring
    have hval : x.val / y.val = (x.m : ℚ) / ((y.m : ℚ) * pow2 (y.e - x.e)) := by
      unfold F32.val
      rw [hp, show (y.m : ℚ) * (pow2 (y.e - x.e) * pow2 x.e) =
        ((y.m : ℚ) * pow2 (y.e - x.e)) * pow2 x.e from by ring]
      rw [mul_div_mul_right _ _ (ne_of_gt (pow2_pos x.e))]
    have hexp : pow2 (y.e - x.e) = ((2 ^ (-(x.e - y.e)).toNat : ℕ) : ℚ) := by
      rw [show y.e - x.e = (((-(x.e - y.e)).toNat : ℕ) : ℤ) from by omega, pow2_natCast]
    rw [hval, hexp]
    push_cast
    ring

theorem f32Trunc_eq_floor (x : F32) : (f32Trunc x : ℤ) = ⌊x.val⌋ := by
  unfold f32Trunc F32.val
  by_cases hE : 0 ≤ x.e
  · rw [if_pos hE, pow2_toNat hE]
    rw [show (x.m : ℚ) * ((2 ^ x.e.toNat : ℕ) : ℚ) =
      ((x.m * 2 ^ x.e.toNat : ℕ) : ℚ) from by push_cast; ring]
    rw [Int.floor_natCast]
  · rw [if_neg hE, pow2_neg_toNat (by omega), mul_one_div]
    rw [floor_natCast_div x.m (2 ^ (-x.e).toNat) (by positivity)]

/-- The per-service stagger offset computed by `main` (both variants):
`offset := time.Duration(float32(interval) * float32(i) / float32(cfg.Services))`,
in nanoseconds, with every conversion and operation in binary32
(round-to-nearest, ties-to-even) and the final conversion truncating
toward zero. -/
def offsetNs (intervalNs i n : ℕ) : ℕ :=
  f32Trunc (f32Div (f32Mul (f32OfNat intervalNs) (f32OfNat i)) (f32OfNat n))

theorem f32Mul_zero_right (x : F32) : f32Mul x ⟨0, 0⟩ = ⟨0, 0⟩ := by
  unfold f32Mul
  by_cases hE : 0 ≤ x.e + (F32.mk 0 0).e
  · rw [if_pos hE]
    rw [show x.m * (F32.mk 0 0).m * 2 ^ (x.e + (F32.mk 0 0).e).toNat = 0 from by
      show x.m * 0 * _ = 0
      rw [Nat.mul_zero, Nat.zero_mul]]
    exact rndPair_zero 1
  · rw [if_neg hE]
    rw [show x.m * (F32.mk 0 0).m = 0 from by
      show x.m * 0 = 0
      rw [Nat.mul_zero]]
    exact rndPair_zero _

theorem f32Div_zero_left (y : F32) : f32Div ⟨0, 0⟩ y = ⟨0, 0⟩ := by
  unfold f32Div
  by_cases hE : 0 ≤ (F32.mk 0 0).e - y.e
  · rw [if_pos hE]
    rw [show (F32.mk 0 0).m * 2 ^ ((F32.mk 0 0).e - y.e).toNat = 0 from by
      show 0 * _ = 0
      rw [Nat.zero_mul]]
    exact rndPair_zero _
  · rw [if_neg hE]
    exact rndPair_zero _

theorem offsetNs_zero_index (intervalNs n : ℕ) : offsetNs intervalNs 0 n = 0 := by
  unfold offsetNs
  rw [show f32OfNat 0 = ⟨0, 0⟩ from rfl, f32Mul_zero_right, f32Div_zero_left]
  rfl

theorem f32OfNat_val_mono {p q : ℕ} (hpq : p ≤ q) :
    (f32OfNat p).val ≤ (f32OfNat q).val := by
  apply rndPair_val_mono one_pos one_pos
  rw [Nat.cast_one, div_one, div_one]
  exact_mod_cast hpq

theorem f32OfNat_m_pos {n : ℕ} (hn : 1 ≤ n) : 0 < (f32OfNat n).m := by
  apply F32.m_pos_of_val_pos
  exact rndPair_val_pos n 1 (by omega) one_pos

theorem offsetNs_mono (intervalNs n : ℕ) (hn : 1 ≤ n) {i j : ℕ} (hij : i ≤ j) :
    offsetNs intervalNs i n ≤ offsetNs intervalNs j n := by
  have hmul : (f32Mul (f32OfNat intervalNs) (f32OfNat i)).val ≤
      (f32Mul (f32OfNat intervalNs) (f32OfNat j)).val := by
    obtain ⟨A1, B1, hB1, hEq1, hV1⟩ := f32Mul_eq_rndPair (f32OfNat intervalNs) (f32OfNat i)
    obtain ⟨A2, B2, hB2, hEq2, hV2⟩ := f32Mul_eq_rndPair (f32OfNat intervalNs) (f32OfNat j)
    rw [hEq1, hEq2]
    apply rndPair_val_mono hB1 hB2
    rw [hV1, hV2]
    exact mul_le_mul_of_nonneg_left (f32OfNat_val_mono hij) (F32.val_nonneg _)
  have hnm : 0 < (f32OfNat n).m := f32OfNat_m_pos hn
  have hdiv : (f32Div (f32Mul (f32OfNat intervalNs) (f32OfNat i)) (f32OfNat n)).val ≤
      (f32Div (f32Mul (f32OfNat intervalNs) (f32OfNat j)) (f32OfNat n)).val := by
    obtain ⟨A1, B1, hB1, hEq1, hV1⟩ :=
      f32Div_eq_rndPair (f32Mul (f32OfNat intervalNs) (f32OfNat i)) (f32OfNat n) hnm
    obtain ⟨A2, B2, hB2, hEq2, hV2⟩ :=
      f32Div_eq_rndPair (f32Mul (f32OfNat intervalNs) (f32OfNat j)) (f32OfNat n) hnm
    rw [hEq1, hEq2]
    apply rndPair_val_mono hB1 hB2
    rw [hV1, hV2]
    exact div_le_div_of_nonneg_right hmul (F32.val_nonneg _)
  have hfl : (f32Trunc (f32Div (f32Mul (f32OfNat intervalNs) (f32OfNat i)) (f32OfNat n)) : ℤ) ≤
      (f32Trunc (f32Div (f32Mul (f32OfNat intervalNs) (f32OfNat j)) (f32OfNat n)) : ℤ) := by
    rw [f32Trunc_eq_floor, f32Trunc_eq_floor]
    exact Int.floor_mono hdiv
  exact_mod_cast hfl

/-! ### Remaining helpers for the claim theorems -/

theorem prodCardsNat_cast (cfgs : List attributeConfig)
    (h : ∀ a ∈ cfgs, 1 ≤ a.Cardinality) :
    ((prodCardsNat cfgs : ℕ) : ℤ) = (cfgs.map fun a => a.Cardinality).prod := by
  induction cfgs with
  | nil => rfl
  | cons c rest ih =>
      have hc : 1 ≤ c.Cardinality := h c (List.mem_cons_self c rest)
      have hrest := ih fun a ha => h a (List.mem_cons_of_mem c ha)
      unfold prodCardsNat at hrest ⊢
      rw [List.map_cons, List.prod_cons, List.map_cons, List.prod_cons,
        Nat.cast_mul, hrest, Int.toNat_of_nonneg (by omega)]

theorem loopTicks_append_ctxDone (pre post : List LoopEvent)
    (hpre : ∀ e ∈ pre, e = LoopEvent.timerFire) :
    loopTicks (pre ++ LoopEvent.ctxDone :: post) = pre.length := by
  induction pre with
  | nil => rfl
  | cons e pre ih =>
      have he : e = LoopEvent.timerFire := hpre e (List.mem_cons_self e pre)
      subst he
      show 1 + loopTicks (pre ++ LoopEvent.ctxDone :: post) = pre.length + 1
      rw [ih fun x hx => hpre x (List.mem_cons_of_mem _ hx)]
      omega

/-- Go `fmt.Sprintf("%04d", i)` for a non-negative integer. -/
def sprintf04d (n : ℕ) : String :=
  let s := decimalDigits n
  String.mk (List.replicate (4 - s.length) '0' ++ s)

theorem sprintf04d_injective : Function.Injective sprintf04d := by
  intro m n h
  have hdata : (List.replicate (4 - (decimalDigits m).length) '0' ++ decimalDigits m)
      = (List.replicate (4 - (decimalDigits n).length) '0' ++ decimalDigits n) :=
    congrArg String.data h
  have hval := congrArg digitsVal hdata
  rw [digitsVal_replicate_zero_append, digitsVal_replicate_zero_append,
    digitsVal_decimalDigits, digitsVal_decimalDigits] at hval
  exact hval

/-- The metric names computed by `main`: `metric-%04d` for
`i` in `0 .. cfg.Metrics - 1`, in order. -/
def metricNames (metrics : ℤ) : List String :=
  (List.range metrics.toNat).map fun i => "metric-" ++ sprintf04d i

/-- The service identities started by `main`: `service-%04d` for
`i` in `0 .. cfg.Services - 1`, in order. -/
def serviceNames (services : ℤ) : List String :=
  (List.range services.toNat).map fun i => "service-" ++ sprintf04d i

theorem append_sprintf04d_injective (p : String) :
    Function.Injective fun i => p ++ sprintf04d i := by
  intro m n h
  have h1 := congrArg String.data h
  rw [String.data_append, String.data_append] at h1
  exact sprintf04d_injective (String.ext (List.append_cancel_left h1))

theorem metricNames_length (metrics : ℤ) :
    (metricNames metrics).length = metrics.toNat := by
  unfold metricNames
  rw [List.length_map, List.length_range]

theorem serviceNames_length (services : ℤ) :
    (serviceNames services).length = services.toNat := by
  unfold serviceNames
  rw [List.length_map, List.length_range]

theorem metricNames_nodup (metrics : ℤ) : (metricNames metrics).Nodup :=
  List.Nodup.map (fun _ _ h => append_sprintf04d_injective "metric-" h)
    (List.nodup_range _)

theorem serviceNames_nodup (services : ℤ) : (serviceNames services).Nodup :=
  List.Nodup.map (fun _ _ h => append_sprintf04d_injective "service-" h)
    (List.nodup_range _)

/-! ### Claim theorems -/

/-- Claim C1: for every list of attribute definitions whose cardinalities
are all at least 1, `iterateAttributes` yields exactly the product of the
cardinalities many attribute combinations, and for the empty list of
definitions it yields the empty sequence. -/
theorem c1_enumeration_count (cfgs : List attributeConfig)
    (hcard : ∀ a ∈ cfgs, 1 ≤ a.Cardinality) :
    (cfgs ≠ [] → ((iterateAttributes cfgs).length : ℤ) =
      (cfgs.map fun a => a.Cardinality).prod) ∧
    iterateAttributes ([] : List attributeConfig) = [] := by
  constructor
  · intro hne
    rw [iterateAttributes_length cfgs hne]
    exact prodCardsNat_cast cfgs hcard
  · rfl

theorem c1_enumeration_count_witness :
    ((iterateAttributes [⟨"a", 2⟩, ⟨"b", 3⟩]).length : ℤ) =
      (([⟨"a", 2⟩, ⟨"b", 3⟩] : List attributeConfig).map fun a => a.Cardinality).prod ∧
    iterateAttributes ([] : List attributeConfig) = [] :=
  ⟨(c1_enumeration_count [⟨"a", 2⟩, ⟨"b", 3⟩] (by decide)).1 (by decide),
   (c1_enumeration_count [⟨"a", 2⟩, ⟨"b", 3⟩] (by decide)).2⟩

/-- Claim C2: `iterateAttributes` enumerates combinations in mixed-radix
odometer order with the first definition as the most significant digit
(the last attribute's value cycles fastest), each position holding its
index rendered as a zero-padded 9-digit decimal string (`mixedRadixCombo`
is the spec-side decode of index `j`); the concrete input
`[{one,1},{two,2},{three,3}]` yields exactly the spec's 6 combinations
in order; and every cardinality-1 position is constantly `"000000000"`. -/
theorem c2_mixed_radix_order :
    (∀ (cfgs : List attributeConfig) (j : ℕ)
        (h : j < (iterateAttributes cfgs).length),
        (iterateAttributes cfgs)[j] = mixedRadixCombo cfgs j) ∧
    iterateAttributes [⟨"one", 1⟩, ⟨"two", 2⟩, ⟨"three", 3⟩] =
      [[⟨"one", "000000000"⟩, ⟨"two", "000000000"⟩, ⟨"three", "000000000"⟩],
       [⟨"one", "000000000"⟩, ⟨"two", "000000000"⟩, ⟨"three", "000000001"⟩],
       [⟨"one", "000000000"⟩, ⟨"two", "000000000"⟩, ⟨"three", "000000002"⟩],
       [⟨"one", "000000000"⟩, ⟨"two", "000000001"⟩, ⟨"three", "000000000"⟩],
       [⟨"one", "000000000"⟩, ⟨"two", "000000001"⟩, ⟨"three", "000000001"⟩],
       [⟨"one", "000000000"⟩, ⟨"two", "000000001"⟩, ⟨"three", "000000002"⟩]] ∧
    (∀ (cfgs : List attributeConfig) (k : ℕ) (hk : k < cfgs.length),
        (cfgs.get ⟨k, hk⟩).Cardinality = 1 →
        ∀ combo ∈ iterateAttributes cfgs,
          combo[k]? = some (KeyValue.mk (cfgs.get ⟨k, hk⟩).Name "000000000")) := by
  refine ⟨iterateAttributes_get_eq_mixedRadix, by decide, ?_⟩
  intro cfgs k hk hcard combo hmem
  rcases List.mem_iff_get.1 hmem with ⟨⟨j, hj⟩, hget⟩
  rw [List.get_eq_getElem] at hget
  rw [← hget, iterateAttributes_get_eq_mixedRadix cfgs j hj]
  exact mixedRadixCombo_card_one cfgs k hk hcard j

theorem c2_mixed_radix_order_witness :
    (iterateAttributes [⟨"one", 1⟩, ⟨"two", 2⟩, ⟨"three", 3⟩]).get ⟨4, by decide⟩ =
      mixedRadixCombo [⟨"one", 1⟩, ⟨"two", 2⟩, ⟨"three", 3⟩] 4 ∧
    ([⟨"one", "000000000"⟩, ⟨"two", "000000000"⟩,
        ⟨"three", "000000000"⟩] : List KeyValue)[0]? =
      some (KeyValue.mk "one" "000000000") := by
  constructor
  · rw [List.get_eq_getElem]
    exact c2_mixed_radix_order.1 [⟨"one", 1⟩, ⟨"two", 2⟩, ⟨"three", 3⟩] 4 (by decide)
  · exact c2_mixed_radix_order.2.2 [⟨"one", 1⟩, ⟨"two", 2⟩, ⟨"three", 3⟩] 0
      (by decide) (by decide)
      [⟨"one", "000000000"⟩, ⟨"two", "000000000"⟩, ⟨"three", "000000000"⟩]
      (by decide)

/-- Claim C8: the enumerator is deterministic and restartable — two
invocations of `iterateAttributes` on equal input produce structurally
equal output sequences, element for element in the same order, and the
sequence of combinations passed to the consumer does not depend on the
consumer (there is no shared mutable state between invocations: the
result is a pure function of the input list). -/
theorem c8_deterministic_restartable (cfgs1 cfgs2 : List attributeConfig)
    (yield1 yield2 : List KeyValue → Bool) (heq : cfgs1 = cfgs2) :
    (runIter cfgs1 yield1).map Prod.fst = (runIter cfgs2 yield2).map Prod.fst ∧
    iterateAttributes cfgs1 = iterateAttributes cfgs2 := by
  subst heq
  refine ⟨?_, rfl⟩
  rw [runIter_eq, runIter_eq, List.map_map, List.map_map]
  rfl

theorem c8_deterministic_restartable_witness :
    (runIter [⟨"a", 2⟩] fun _ => true).map Prod.fst =
      (runIter [⟨"a", 2⟩] fun _ => false).map Prod.fst ∧
    iterateAttributes [⟨"a", 2⟩] = iterateAttributes [⟨"a", 2⟩] :=
  c8_deterministic_restartable [⟨"a", 2⟩] [⟨"a", 2⟩]
    (fun _ => true) (fun _ => false) rfl

/-- Claim C9 (implicit): `iterateAttributes` ignores the boolean returned
by the `yield` callback — for every non-empty definition list, whatever
the consumer returns (in particular the constant-`false` consumer
requesting early termination), the enumerator still invokes `yield` once
per combination, i.e. exactly the full product of the cardinalities many
times, recording `false` from every call instead of stopping. -/
theorem c9_yield_result_ignored (cfgs : List attributeConfig) (hne : cfgs ≠ []) :
    (runIter cfgs fun _ => false).length = prodCardsNat cfgs ∧
    (∀ yield : List KeyValue → Bool,
      (runIter cfgs yield).length = prodCardsNat cfgs) ∧
    (∀ pr ∈ runIter cfgs fun _ => false, pr.2 = false) := by
  have hlen : ∀ yield : List KeyValue → Bool,
      (runIter cfgs yield).length = prodCardsNat cfgs := by
    intro yield
    rw [runIter_eq, List.length_map, iterateAttributes_length cfgs hne]
  refine ⟨hlen _, hlen, ?_⟩
  intro pr hpr
  rw [runIter_eq] at hpr
  rcases List.mem_map.1 hpr with ⟨a, _, ha⟩
  rw [← ha]

theorem c9_yield_result_ignored_witness :
    (runIter [⟨"a", 2⟩, ⟨"b", 3⟩] fun _ => false).length =
      prodCardsNat [⟨"a", 2⟩, ⟨"b", 3⟩] ∧
    prodCardsNat [⟨"a", 2⟩, ⟨"b", 3⟩] = 6 :=
  ⟨(c9_yield_result_ignored [⟨"a", 2⟩, ⟨"b", 3⟩] (by decide)).1, by decide⟩

/-- Claim C10 (implicit): a failure of the Collect phase during any tick
is fatal — `tick` calls `log.Fatalf`, terminating the process
immediately with a non-zero exit status — whereas an export error in the
same tick never produces the fatal outcome. -/
theorem c10_collect_failure_fatal (g : ℕ) (msg : String)
    (e : Option ExportErr) (cd : Bool) :
    tickOutcome g (some msg) e cd = TickOutcome.fatalExit msg ∧
    (∀ msg2, tickOutcome g none e cd ≠ TickOutcome.fatalExit msg2) := by
  refine ⟨rfl, ?_⟩
  intro msg2
  rcases e with _ | err
  · cases cd <;> simp [tickOutcome, errIsDeadlineExceeded]
  · cases err <;> cases cd <;> simp [tickOutcome, errIsDeadlineExceeded]

theorem c10_collect_failure_fatal_witness :
    tickOutcome 2 (some "collect failed") (some (ExportErr.other "x")) false =
      TickOutcome.fatalExit "collect failed" ∧
    tickOutcome 2 none (some (ExportErr.other "x")) false ≠
      TickOutcome.fatalExit "collect failed" :=
  ⟨(c10_collect_failure_fatal 2 "collect failed" (some (ExportErr.other "x")) false).1,
   (c10_collect_failure_fatal 2 "collect failed" (some (ExportErr.other "x")) false).2
     "collect failed"⟩

/-- Claim C3 counterexample: with 1 gauge and 2 attribute combinations
and a fully successful export, the tick exports `1 * 2 = 2` data points
but reports success with the number `1` (the gauge count), so the
claim's "the number of points exported is reported" is false. -/
theorem c3_counterexample :
    tickOutcome 1 none none false = TickOutcome.reportSuccess 1 ∧
    pointsRecorded 1 2 = 2 ∧
    tickOutcome 1 none none false ≠
      TickOutcome.reportSuccess (pointsRecorded 1 2) := by
  refine ⟨rfl, rfl, ?_⟩
  decide

/-- Claim C3 (amended): every export outcome is handled non-fatally: a
deadline-exceeded error is reported as a timeout; otherwise, if the
process-wide cancellation has fired, the tick returns silently; any
other error is reported as a failure; on success the tick reports the
number of metric instruments (`len(gauges)`) — not the number of
exported points, which is `gauges * combinations`.  In particular no
outcome after cancellation is ever reported as a failure, and no export
outcome is fatal. -/
theorem c3_export_outcome (g : ℕ) (e : Option ExportErr) (cd : Bool) :
    (∀ msg, tickOutcome g none e cd ≠ TickOutcome.fatalExit msg) ∧
    (errIsDeadlineExceeded e = true →
      tickOutcome g none e cd = TickOutcome.reportTimeout) ∧
    (errIsDeadlineExceeded e = false → cd = true →
      tickOutcome g none e cd = TickOutcome.silentReturn) ∧
    (∀ err, errIsDeadlineExceeded (some err) = false → cd = false →
      tickOutcome g none (some err) cd = TickOutcome.reportFailure) ∧
    (cd = false → tickOutcome g none none cd = TickOutcome.reportSuccess g) ∧
    (cd = true → tickOutcome g none e cd ≠ TickOutcome.reportFailure) := by
  refine ⟨?_, ?_, ?_, ?_, ?_, ?_⟩
  · intro msg
    rcases e with _ | err
    · cases cd <;> simp [tickOutcome, errIsDeadlineExceeded]
    · cases err <;> cases cd <;> simp [tickOutcome, errIsDeadlineExceeded]
  · intro hdl
    rcases e with _ | err
    · simp [errIsDeadlineExceeded] at hdl
    · cases err <;> simp_all [tickOutcome, errIsDeadlineExceeded]
  · intro hdl hcd
    subst hcd
    rcases e with _ | err
    · simp [tickOutcome, errIsDeadlineExceeded]
    · cases err <;> simp_all [tickOutcome, errIsDeadlineExceeded]
  · intro err hdl hcd
    subst hcd
    cases err <;> simp_all [tickOutcome, errIsDeadlineExceeded]
  · intro hcd
    subst hcd
    simp [tickOutcome, errIsDeadlineExceeded]
  · intro hcd
    subst hcd
    rcases e with _ | err
    · simp [tickOutcome, errIsDeadlineExceeded]
    · cases err <;> simp [tickOutcome, errIsDeadlineExceeded]

theorem c3_export_outcome_witness :
    tickOutcome 3 none (some ExportErr.deadlineExceeded) false =
      TickOutcome.reportTimeout ∧
    tickOutcome 3 none none false = TickOutcome.reportSuccess 3 ∧
    tickOutcome 3 none (some (ExportErr.other "refused")) true ≠
      TickOutcome.reportFailure :=
  ⟨(c3_export_outcome 3 (some ExportErr.deadlineExceeded) false).2.1 rfl,
   (c3_export_outcome 3 none false).2.2.2.2.1 rfl,
   (c3_export_outcome 3 (some (ExportErr.other "refused")) true).2.2.2.2.2 rfl⟩

/-- Claim C4 counterexample: the cancellation signal fires while a
service is still sleeping its stagger offset and no loop event ever
occurs, yet the service executes one tick (the unconditional first tick
after `time.Sleep`), where the claim requires zero. -/
theorem c4_counterexample :
    generateTicks true [] = 1 ∧ generateTicks true [] ≠ 0 := by
  exact ⟨rfl, by decide⟩

/-- Claim C4 (amended): the periodic timer wait observes the
cancellation signal — once the loop takes the `ctx.Done()` branch it
executes no further tick, regardless of later events — and the bounded
export call observes it through its derived context; but the initial
offset sleep does not: `time.Sleep` always completes and the first tick
executes unconditionally, so behaviour is identical whether or not
cancellation fired during the offset, and at least one tick always
runs. -/
theorem c4_cancellation (cancelled : Bool) (events pre post : List LoopEvent)
    (deadlinePassed : Bool) :
    generateTicks cancelled events = generateTicks false events ∧
    1 ≤ generateTicks cancelled events ∧
    ((∀ e ∈ pre, e = LoopEvent.timerFire) →
      loopTicks (pre ++ LoopEvent.ctxDone :: post) = pre.length) ∧
    exportCtxDone true deadlinePassed = true := by
  refine ⟨rfl, ?_, loopTicks_append_ctxDone pre post, rfl⟩
  show 1 ≤ 1 + loopTicks events
  omega

theorem c4_cancellation_witness :
    generateTicks true [LoopEvent.timerFire] =
      generateTicks false [LoopEvent.timerFire] ∧
    loopTicks ([LoopEvent.timerFire, LoopEvent.timerFire] ++
      LoopEvent.ctxDone :: [LoopEvent.timerFire]) = 2 :=
  ⟨(c4_cancellation true [LoopEvent.timerFire]
      [LoopEvent.timerFire, LoopEvent.timerFire] [LoopEvent.timerFire] false).1,
   (c4_cancellation true [LoopEvent.timerFire]
      [LoopEvent.timerFire, LoopEvent.timerFire] [LoopEvent.timerFire] false).2.2.1
     (by decide)⟩

/-- Claim C6 counterexample: at an 8-second interval the spec's deadline
(quarter of the interval, floor one second) is 2 s, but
cmd/firegen/main.go uses a fixed 1 s; and at a 2-second interval the
other source variant uses 500 ms, below the claimed 1-second floor. -/
theorem c6_counterexample :
    exportTimeoutMain (8 * 1000000000) = 1000000000 ∧
    specExportDeadline (8 * 1000000000) = 2 * 1000000000 ∧
    exportTimeoutMain (8 * 1000000000) ≠ specExportDeadline (8 * 1000000000) ∧
    exportTimeoutVariant (2 * 1000000000) = 500000000 ∧
    exportTimeoutVariant (2 * 1000000000) ≠ specExportDeadline (2 * 1000000000) := by
  refine ⟨rfl, by decide, by decide, by decide, by decide⟩

/-- Claim C6 (amended): the export deadline is not configurable and
matches neither spec clause exactly: cmd/firegen/main.go uses a fixed
one second independent of the interval, while the other observed source
variant uses `interval / 4` with no floor — it drops below one second
exactly when the interval is under four seconds. -/
theorem c6_export_deadline (intervalNs : ℕ) :
    exportTimeoutMain intervalNs = 1000000000 ∧
    exportTimeoutVariant intervalNs = intervalNs / 4 ∧
    (exportTimeoutVariant intervalNs < 1000000000 ↔
      intervalNs < 4 * 1000000000) := by
  refine ⟨rfl, rfl, ?_⟩
  unfold exportTimeoutVariant
  omega

theorem c6_export_deadline_witness :
    exportTimeoutMain 5000000000 = 1000000000 ∧
    exportTimeoutVariant 5000000000 = 5000000000 / 4 :=
  ⟨(c6_export_deadline 5000000000).1, (c6_export_deadline 5000000000).2.1⟩

/-- Claim C5 counterexample: the offset is computed in float32, not
continuously.  With a 1 s interval and `n = 2^25` services, the last
service's index `2^25 - 1` rounds to `2^25` in float32, so
`offset(n-1, n, 1s)` is exactly the interval — not strictly less.  With
an 11 s interval (whose nanosecond count is not float32-representable)
the same indices give an offset strictly greater than the interval. -/
theorem c5_offset_counterexample :
    offsetNs 1000000000 (2 ^ 25 - 1) (2 ^ 25) = 1000000000 ∧
    ¬ (offsetNs 1000000000 (2 ^ 25 - 1) (2 ^ 25) < 1000000000) ∧
    offsetNs 11000000000 (2 ^ 25 - 1) (2 ^ 25) = 11000000512 ∧
    11000000000 < offsetNs 11000000000 (2 ^ 25 - 1) (2 ^ 25) := by
  refine ⟨by decide, by decide, by decide, by decide⟩

/-- Claim C5 (amended): the per-service stagger offset is
`interval * i / n` evaluated in float32 arithmetic and truncated to
integer nanoseconds; for every `n ≥ 1` it satisfies
`offset(0, n, interval) = 0` and is non-decreasing in the service index,
but the spec's strict bound `offset(n-1, n, interval) < interval` fails
for large `n` (see the counterexample). -/
theorem c5_offset_properties (intervalNs n : ℕ) (hn : 1 ≤ n) :
    offsetNs intervalNs 0 n = 0 ∧
    (∀ i j : ℕ, i ≤ j → offsetNs intervalNs i n ≤ offsetNs intervalNs j n) :=
  ⟨offsetNs_zero_index intervalNs n,
   fun _ _ hij => offsetNs_mono intervalNs n hn hij⟩

theorem c5_offset_properties_witness :
    offsetNs 1000000000 0 4 = 0 ∧
    offsetNs 1000000000 1 4 ≤ offsetNs 1000000000 3 4 :=
  ⟨(c5_offset_properties 1000000000 4 (by decide)).1,
   (c5_offset_properties 1000000000 4 (by decide)).2 1 3 (by decide)⟩

/-- Claim C7 counterexample: Go's `int` multiplication wraps at 64 bits,
so for a clamped configuration with two attributes of cardinality
`2^32` the product is `2^64`, which wraps to `0`: the program reports
"Total series 0" although `Services * Metrics * ∏ cardinality = 2^64`. -/
theorem c7_total_series_counterexample :
    totalSeriesReported (clampConfig ⟨1, 1, 1, [⟨"a", 2 ^ 32⟩, ⟨"b", 2 ^ 32⟩]⟩) = 0 ∧
    ((clampConfig ⟨1, 1, 1, [⟨"a", 2 ^ 32⟩, ⟨"b", 2 ^ 32⟩]⟩).Attributes.map
      fun a => a.Cardinality).prod = 2 ^ 64 ∧
    (0 : ℤ) ≠ 1 * 1 * 2 ^ 64 := by
  refine ⟨by decide, by decide, by decide⟩

/-- Claim C7 (amended): for every clamped configuration whose exact
total `Services * Metrics * ∏ cardinality` stays below `2^63` (no Go
`int` overflow), the reported "Total series" value equals that product;
the cross product of service identities, metric names and enumerated
attribute combinations is duplicate-free (the series really are
distinct); for a non-empty attribute list its size equals the reported
value; and the spec's concrete scenario reports 24. -/
theorem c7_total_series (cfg : config)
    (hno : (clampConfig cfg).Services * (clampConfig cfg).Metrics *
      ((clampConfig cfg).Attributes.map fun a => a.Cardinality).prod < 2 ^ 63) :
    totalSeriesReported (clampConfig cfg) =
      (clampConfig cfg).Services * (clampConfig cfg).Metrics *
        ((clampConfig cfg).Attributes.map fun a => a.Cardinality).prod ∧
    (serviceNames (clampConfig cfg).Services ×ˢ
      (metricNames (clampConfig cfg).Metrics ×ˢ
        iterateAttributes (clampConfig cfg).Attributes)).Nodup ∧
    ((clampConfig cfg).Attributes ≠ [] →
      ((serviceNames (clampConfig cfg).Services ×ˢ
        (metricNames (clampConfig cfg).Metrics ×ˢ
          iterateAttributes (clampConfig cfg).Attributes)).length : ℤ) =
        totalSeriesReported (clampConfig cfg)) ∧
    totalSeriesReported (clampConfig ⟨2, 1, 2, [⟨"r", 2⟩, ⟨"c", 1⟩, ⟨"p", 3⟩]⟩) = 24 := by
  have hS : 1 ≤ (clampConfig cfg).Services := le_max_left 1 _
  have hM : 1 ≤ (clampConfig cfg).Metrics := le_max_left 1 _
  have hattrs : ∀ a ∈ (clampConfig cfg).Attributes, 1 ≤ a.Cardinality := by
    intro a ha
    rcases List.mem_map.1 ha with ⟨b, _, hb⟩
    rw [← hb]
    exact le_max_left 1 _
  have hP : 1 ≤ ((clampConfig cfg).Attributes.map fun a => a.Cardinality).prod := by
    apply one_le_listProd_int
    intro x hx
    rcases List.mem_map.1 hx with ⟨b, hb, hbx⟩
    rw [← hbx]
    exact hattrs b hb
  have hSM : 1 ≤ (clampConfig cfg).Services * (clampConfig cfg).Metrics := by
    nlinarith
  have hSMP1 : (clampConfig cfg).Services * (clampConfig cfg).Metrics ≤
      (clampConfig cfg).Services * (clampConfig cfg).Metrics *
        ((clampConfig cfg).Attributes.map fun a => a.Cardinality).prod := by
    nlinarith
  have hPle : ((clampConfig cfg).Attributes.map fun a => a.Cardinality).prod ≤
      (clampConfig cfg).Services * (clampConfig cfg).Metrics *
        ((clampConfig cfg).Attributes.map fun a => a.Cardinality).prod := by
    nlinarith
  have hcard : attrCardinality (clampConfig cfg).Attributes =
      ((clampConfig cfg).Attributes.map fun a => a.Cardinality).prod := by
    have := attrCardinality_foldl_eq (clampConfig cfg).Attributes 1 (le_refl 1)
      hattrs (by rw [one_mul]; omega)
    unfold attrCardinality
    rw [this, one_mul]
  have hreported : totalSeriesReported (clampConfig cfg) =
      (clampConfig cfg).Services * (clampConfig cfg).Metrics *
        ((clampConfig cfg).Attributes.map fun a => a.Cardinality).prod := by
    have hinner : wrapInt64 ((clampConfig cfg).Services * (clampConfig cfg).Metrics) =
        (clampConfig cfg).Services * (clampConfig cfg).Metrics :=
      wrapInt64_eq_self (by omega) (by omega)
    unfold totalSeriesReported
    rw [hcard, hinner, wrapInt64_eq_self (by omega) (by omega)]
  refine ⟨hreported, ?_, ?_, by decide⟩
  · exact List.Nodup.product (serviceNames_nodup _)
      (List.Nodup.product (metricNames_nodup _) (iterateAttributes_nodup _))
  · intro hne
    have hcombolen : ((iterateAttributes (clampConfig cfg).Attributes).length : ℤ) =
        ((clampConfig cfg).Attributes.map fun a => a.Cardinality).prod := by
      rw [iterateAttributes_length _ hne]
      exact prodCardsNat_cast _ hattrs
    rw [List.length_product, List.length_product, serviceNames_length,
      metricNames_length, hreported]
    push_cast
    rw [hcombolen, Int.toNat_of_nonneg (by omega), Int.toNat_of_nonneg (by omega)]
    ring

theorem c7_total_series_witness :
    totalSeriesReported (clampConfig ⟨2, 1, 2, [⟨"r", 2⟩, ⟨"c", 1⟩, ⟨"p", 3⟩]⟩) = 24 ∧
    ((serviceNames (clampConfig ⟨2, 1, 2, [⟨"r", 2⟩, ⟨"c", 1⟩, ⟨"p", 3⟩]⟩).Services ×ˢ
      (metricNames (clampConfig ⟨2, 1, 2, [⟨"r", 2⟩, ⟨"c", 1⟩, ⟨"p", 3⟩]⟩).Metrics ×ˢ
        iterateAttributes
          (clampConfig ⟨2, 1, 2, [⟨"r", 2⟩, ⟨"c", 1⟩, ⟨"p", 3⟩]⟩).Attributes)).length : ℤ) =
      totalSeriesReported (clampConfig ⟨2, 1, 2, [⟨"r", 2⟩, ⟨"c", 1⟩, ⟨"p", 3⟩]⟩) :=
  ⟨(c7_total_series ⟨2, 1, 2, [⟨"r", 2⟩, ⟨"c", 1⟩, ⟨"p", 3⟩]⟩ (by decide)).2.2.2,
   (c7_total_series ⟨2, 1, 2, [⟨"r", 2⟩, ⟨"c", 1⟩, ⟨"p", 3⟩]⟩ (by decide)).2.2.1
     (by decide)⟩

end Firegen
